import Mathlib

/-!
Shallow embedding of `src/PackageManager.js` (game-package module model).

Texts are modelled as `List Char`.  A JavaScript string is identified with its
list of characters; the multiline regex anchors `^`/`$` of the source are
modelled by splitting on `'\n'` and working line by line.  JavaScript `\r`
(also a line terminator for `^$`/`.` in JS regexes) is treated as an ordinary
character inside lines, so theorems about the sanitizer carry a `'\r' ∉ s`
hypothesis to stay inside the faithful fragment of the embedding.
-/

namespace PackageManager

/-- `[ \t]` of the sanitizer regexes. -/
def isHT (c : Char) : Bool := c = ' ' || c = '\t'

/-- JS regex `\s` (ASCII fragment): space, tab, newline, carriage return,
vertical tab, form feed. -/
def isSpaceJS (c : Char) : Bool :=
  c = ' ' || c = '\t' || c = '\n' || c = '\r' || c = '\x0b' || c = '\x0c'

/-- JS regex line terminators (`^`/`$` anchors with the `m` flag, and the
characters `.` refuses to match). -/
def isLineTerm (c : Char) : Bool := c = '\n' || c = '\r'

/-- JS regex `\w`, used for the word boundary `\b`. -/
def isWordChar (c : Char) : Bool :=
  ('a' ≤ c && c ≤ 'z') || ('A' ≤ c && c ≤ 'Z') || ('0' ≤ c && c ≤ '9') || c = '_'

/-- Case-insensitive comparison against a lowercase pattern character
(`i` flag; JS ASCII case folding). -/
def lowerEq (d c : Char) : Bool := d.toLower = c

/-- `startsKw w l`: the subject `l` starts with the keyword `w`
(case-insensitively) followed by a word boundary `\b`. -/
def startsKw : List Char → List Char → Bool
  | [], l =>
    match l with
    | [] => true
    | c :: _ => !isWordChar c
  | _ :: _, [] => false
  | c :: w, d :: l => lowerEq d c && startsKw w l

/-- `(import|from)\b` with the `i` flag, at the head of `l`. -/
def kwCI (l : List Char) : Bool :=
  startsKw ("import".toList) l || startsKw ("from".toList) l

/-- One line matches `^([ \t]*(\/\/)?(import|from)\b.*)$` (the second
`replace` of `sanitizeCode`).  The optional `(\/\/)?` group is greedy; if it
is present the keyword must follow it directly. -/
def sanMatch (l : List Char) : Bool :=
  let r := l.dropWhile isHT
  if r.take 2 = ['/', '/'] then kwCI (r.drop 2) else kwCI r

/-- Effect of `sanitizeCode`'s second replace on one line: the replacement
string is `'//$1'` with `$1` the whole line. -/
def sanLine (l : List Char) : List Char :=
  if sanMatch l then '/' :: '/' :: l else l

/-- One line matches `^\/\/([ \t]*(import|from)\b.*)$` (the second `replace`
of `unsanitizeCode`). -/
def unsanMatch (l : List Char) : Bool :=
  l.take 2 = ['/', '/'] && kwCI ((l.drop 2).dropWhile isHT)

/-- Effect of `unsanitizeCode`'s second replace on one line: replacement
`'$1'` strips the leading `//`. -/
def unsanLine (l : List Char) : List Char :=
  if unsanMatch l then l.drop 2 else l

/-- Head of a line is a space or tab. -/
def headIsHT : List Char → Bool
  | [] => false
  | c :: _ => isHT c

/-- A line the sanitize/unsanitize round trip mangles, first kind: optional
whitespace, then `//` directly followed by the keyword.  Sanitize prefixes a
second `//` which unsanitize cannot remove. -/
def badA (l : List Char) : Bool :=
  decide ((l.dropWhile isHT).take 2 = ['/', '/']) && kwCI ((l.dropWhile isHT).drop 2)

/-- Second kind: `//`, then at least one space or tab, then the keyword.
Sanitize leaves the line alone but unsanitize strips its `//`. -/
def badB (l : List Char) : Bool :=
  decide (l.take 2 = ['/', '/']) && headIsHT (l.drop 2)
    && kwCI ((l.drop 2).dropWhile isHT)

/-- A line on which the sanitizer round trip fails. -/
def badLine (l : List Char) : Bool := badA l || badB l

/-- `code.replace(/^#/, '//#')`: no `m` flag, so only the very start of the
string (the first line) is affected. -/
def hashFix : List (List Char) → List (List Char)
  | [] => []
  | l :: ls => (if l.head? = some '#' then '/' :: '/' :: l else l) :: ls

/-- `code.replace(/^\/\/#/, '#')`: no `m` flag, first line only. -/
def unhashFix : List (List Char) → List (List Char)
  | [] => []
  | l :: ls => (if l.take 3 = ['/', '/', '#'] then l.drop 2 else l) :: ls

/-- Split a text into its `'\n'`-separated lines (as JS multiline anchoring
does; the result is never empty). -/
def splitNL : List Char → List (List Char)
  | [] => [[]]
  | c :: s =>
    let rest := splitNL s
    if c = '\n' then [] :: rest
    else
      match rest with
      | [] => [[c]]
      | l :: ls => (c :: l) :: ls

/-- Rejoin lines with `'\n'`. -/
def joinNL : List (List Char) → List Char
  | [] => []
  | [l] => l
  | l :: ls => l ++ '\n' :: joinNL ls

/-- `sanitizeCode` of the source:
`code.replace(/^#/, '//#').replace(/^([ \t]*(\/\/)?(import|from)\b.*)$/img, '//$1')`. -/
def sanitizeCode (s : List Char) : List Char :=
  joinNL ((hashFix (splitNL s)).map sanLine)

/-- `unsanitizeCode` of the source:
`code.replace(/^\/\/#/, '#').replace(/^\/\/([ \t]*(import|from)\b.*)$/img, '$1')`. -/
def unsanitizeCode (s : List Char) : List Char :=
  joinNL ((unhashFix (splitNL s)).map unsanLine)

/-!
## Import parser / resolver

`var importRegex = /^(\s*)(import|from)\s+(.*?)\s*;*$/gm;` together with the
`exec` loop of `exports.parseImports`.  The matcher below implements exactly
this regex with JS backtracking semantics: `\s*`/`\s+`/`;*` greedy (longest
first), `.*?` lazy (shortest first), `^`/`$` multiline anchors, `.` refusing
line terminators.
-/

/-- Length of the maximal leading `\s`-run. -/
def wsRun : List Char → Nat
  | [] => 0
  | c :: s => if isSpaceJS c then wsRun s + 1 else 0

/-- Length of the maximal leading `;`-run. -/
def semiRun : List Char → Nat
  | [] => 0
  | c :: s => if c = ';' then semiRun s + 1 else 0

/-- The multiline `$` anchor holds at this position. -/
def atLineEnd : List Char → Bool
  | [] => true
  | c :: _ => isLineTerm c

/-- Greedy `;*$` against `r1`: try `b` semicolons, longest first. -/
def findB (r1 : List Char) : Nat → Option Nat
  | 0 => if atLineEnd r1 then some 0 else none
  | b + 1 => if atLineEnd (r1.drop (b + 1)) then some (b + 1) else findB r1 b

/-- `\s*;*$` against `r` with the `\s*` length fixed to `a`; returns the
total number of characters consumed. -/
def closeFrom (r : List Char) (a : Nat) : Option Nat :=
  let r1 := r.drop a
  (findB r1 (semiRun r1)).map (fun b => a + b)

/-- Greedy `\s*`: try lengths from `a` down to `0`. -/
def closeSearch (r : List Char) : Nat → Option Nat
  | 0 => closeFrom r 0
  | a + 1 =>
    match closeFrom r (a + 1) with
    | some n => some n
    | none => closeSearch r a

/-- `\s*;*$` with full backtracking; returns the consumed length. -/
def matchClose (r : List Char) : Option Nat :=
  closeSearch r (wsRun r)

/-- `(.*?)\s*;*$`: lazy `.*?` (shortest first, never across a line
terminator); returns the captured group 3 and the consumed length. -/
def matchTail : List Char → Option (List Char × Nat)
  | [] =>
    match matchClose [] with
    | some n => some ([], n)
    | none => none
  | c :: r' =>
    match matchClose (c :: r') with
    | some n => some ([], n)
    | none =>
      if isLineTerm c then none
      else
        match matchTail r' with
        | some (m3, n) => some (c :: m3, n + 1)
        | none => none

/-- `\s+(.*?)\s*;*$`: greedy `\s+` tries lengths from the maximum down
to 1. -/
def ksearch (s2 : List Char) : Nat → Option (List Char × Nat)
  | 0 => none
  | k + 1 =>
    match matchTail (s2.drop (k + 1)) with
    | some (m3, n) => some (m3, (k + 1) + n)
    | none => ksearch s2 k

/-- The part of the pattern after the keyword. -/
def afterKw (s2 : List Char) : Option (List Char × Nat) :=
  ksearch s2 (wsRun s2)

/-- Result of one successful `importRegex.exec`: which keyword matched
(`isImp = true` for `import`), the group `m[3]`, and the total match
length. -/
structure MatchRes where
  isImp : Bool
  m3 : List Char
  len : Nat
deriving DecidableEq

/-- Attempt the whole pattern at a position where `^` holds.  The leading
`(\s*)` must be the full whitespace run (a shorter run would leave a
whitespace character where the keyword is required). -/
def tryMatch (s : List Char) : Option MatchRes :=
  let w := wsRun s
  let s1 := s.drop w
  if s1.take 6 = "import".toList then
    match afterKw (s1.drop 6) with
    | some (m3, n) => some ⟨true, m3, w + 6 + n⟩
    | none => none
  else if s1.take 4 = "from".toList then
    match afterKw (s1.drop 4) with
    | some (m3, n) => some ⟨false, m3, w + 4 + n⟩
    | none => none
  else none

mutual
/-- JS `str.split(/\s+/)` (separators are maximal whitespace runs; a leading
or trailing separator contributes an empty field). -/
def splitWSAux : List Char → List Char → List (List Char)
  | [], acc => [acc.reverse]
  | c :: s, acc =>
    if isSpaceJS c then acc.reverse :: splitWSSkip s
    else splitWSAux s (c :: acc)
def splitWSSkip : List Char → List (List Char)
  | [] => [[]]
  | c :: s => if isSpaceJS c then splitWSSkip s else splitWSAux s [c]
end

def splitWS (s : List Char) : List (List Char) := splitWSAux s []

/-- `rel2.replace(/[^.]+\.?$/, '')` in `resolve`: drop the trailing run of
non-dot characters together with at most one dot directly before it; if the
string ends in two dots (or is empty) nothing matches. -/
def stripSeg (s : List Char) : List Char :=
  let r := s.reverse
  let k :=
    match r with
    | [] => 0
    | c :: r' =>
      if c = '.' then
        let t := r'.takeWhile (fun x => x ≠ '.')
        if t = [] then 0 else t.length + 1
      else (r.takeWhile (fun x => x ≠ '.')).length
  s.take (s.length - k)

/-- The `while (cls.match(/^\./))` loop of `resolve`. -/
def resolveLoop : List Char → List Char → List Char
  | rel2, [] => rel2
  | rel2, c :: cls =>
    if c = '.' then resolveLoop (stripSeg rel2) cls else rel2 ++ c :: cls

/-- `resolve(cls)` with the captured base package path `rel`; an absent or
empty base is the empty list (JS `!rel`). -/
def resolve (rel cls : List Char) : List Char :=
  if rel = [] then cls
  else if cls.head? = some '.' then resolveLoop rel cls
  else cls

/-- `rest[0].replace(/((^\.)|\.)[^.]+$/, '$2')`: remove the last dotted
segment together with its dot; if that dot is the leading character the
replacement `$2` keeps it. -/
def stripClass (s : List Char) : List Char :=
  let r := s.reverse
  let t := r.takeWhile (fun x => x ≠ '.')
  if t = [] then s
  else
    match r.drop t.length with
    | [] => s
    | _ :: rest => if rest = [] then ['.'] else rest.reverse

/-- `rest[0].replace(/^(.*)\./, '')`: everything after the last dot
(unchanged when there is no dot). -/
def afterLastDot (s : List Char) : List Char :=
  let t := s.reverse.takeWhile (fun x => x ≠ '.')
  if t.length = s.length then s else t.reverse

/-- `.replace(/^\./, '')`: strip one leading dot. -/
def stripLeadDot (s : List Char) : List Char :=
  if s.head? = some '.' then s.tail else s

/-- One parsed import statement.  JS field names: `type` (here the Boolean
`isImp`), `package`, `class` (here `cls`), `alias` (here `aliasName`),
`resolved`.  For a `from` statement `rest[2]` may be JS `undefined`, hence
the `Option`; where JS coerces `undefined` into a string it becomes
`"undefined"`. -/
structure ImportRecord where
  isImp : Bool
  package : List Char
  cls : Option (List Char)
  aliasName : Option (List Char)
  resolved : List Char
deriving DecidableEq

def jsUndef : List Char := "undefined".toList

/-- Build the record pushed by `parseImports` for one match. -/
def mkRecord (rel : List Char) (isImp : Bool) (m3 : List Char) : ImportRecord :=
  let rest := splitWS m3
  let r0 := rest.headD []
  if isImp then
    { isImp := true
      package := resolve rel (stripClass r0)
      cls := some (afterLastDot r0)
      aliasName := some (stripLeadDot ((rest.get? 2).elim r0
        (fun s2 => if s2 = [] then r0 else s2)))
      resolved := resolve rel r0 }
  else
    { isImp := false
      package := resolve rel r0
      cls := rest.get? 2
      aliasName := rest.get? 2
      resolved := resolve rel
        ((if r0 = [] then [] else r0 ++ ['.']) ++ ((rest.get? 2).getD jsUndef)) }

/-- The `while (m = importRegex.exec(code))` loop.  `atLS` records whether
the multiline `^` anchor holds at the current position; a successful match
always ends at a `$` position, so the character after it (if any) is a line
terminator and scanning can resume one character at a time.  The fuel is one
more than the remaining length, which every step strictly decreases. -/
def scanAux (rel : List Char) : Nat → Bool → List Char → List ImportRecord
  | 0, _, _ => []
  | _ + 1, _, [] => []
  | fuel + 1, false, c :: s' => scanAux rel fuel (isLineTerm c) s'
  | fuel + 1, true, c :: s' =>
    match tryMatch (c :: s') with
    | some res =>
      mkRecord rel res.isImp res.m3 :: scanAux rel fuel false ((c :: s').drop res.len)
    | none => scanAux rel fuel (isLineTerm c) s'

/-- `exports.parseImports(code, rel)` (the trailing
`importRegex.lastIndex = 0` makes the scan restartable, so the function is
pure). -/
def parseImports (code rel : List Char) : List ImportRecord :=
  scanAux rel (code.length + 1) true code

/-!
## Manifest model

`manifest.json` parses to a JSON value; the manifest of a package is a JSON
object, modelled as an association list of fields (JS objects have unique
keys, which becomes a `Nodup` hypothesis where it matters).  The external
JSON library is modelled by keeping files either as raw unparseable bytes or
as the parsed object (`JSON.parse ∘ JSON.stringify` is the identity on
JSON-representable values, which also models `clone`).
-/

/-- A JSON value. -/
inductive JVal where
  | str (s : List Char)
  | num (n : Int)
  | boolean (b : Bool)
  | null
  | obj (fields : List (List Char × JVal))
  | arr (elems : List JVal)

/-- A manifest object: association list of fields. -/
abbrev Fields := List (List Char × JVal)


/-- JS property read `m[key]` (first matching key; `none` = `undefined`). -/
def lookupField : Fields → List Char → Option JVal
  | [], _ => none
  | (k, v) :: rest, key => if k = key then some v else lookupField rest key

/-- JS property assignment `m[key] = v`: overwrite in place, else append. -/
def setField : Fields → List Char → JVal → Fields
  | [], key, v => [(key, v)]
  | (k, w) :: rest, key, v =>
    if k = key then (key, v) :: rest else (k, w) :: setField rest key v

def appIDKey : List Char := "appID".toList

/-- Negation of the regeneration test of `readManifest`:
`!appID || typeof appID !== 'string' || appID.length < 1`. -/
def appIDValid (m : Fields) : Bool :=
  match lookupField m appIDKey with
  | some (JVal.str s) => s ≠ ([] : List Char)
  | _ => false

/-- `(n).toString(16)` for `n < 16`. -/
def hexDigit (n : Nat) : Char :=
  if n < 10 then Char.ofNat ('0'.toNat + n) else Char.ofNat ('a'.toNat + (n - 10))

/-- The string `([1e7]+1e3+4e3+8e3+1e11)` of `createUUID`: 32 characters,
no dashes. -/
def uuidTemplate : List Char := "10000000100040008000100000000000".toList

/-- Replacement for one matched digit `a ∈ {0,1,8}` of the template, with
`r` the value of `Math.random()*16 | 0` (so `r % 16` is used):
`(a ^ Math.random()*16 >> a/4).toString(16)`.  For `a = 8` the shift is
`>> 2` and `8 ^ x = 8 + x` for `x < 4`. -/
def uuidChar (a : Char) (r : Nat) : Char :=
  if a = '0' then hexDigit (r % 16)
  else if a = '1' then hexDigit (1 ^^^ (r % 16))
  else hexDigit (8 + ((r % 16) / 4))

/-- `.replace(/[018]/g, createUUID)` over the template, the randomness
stream indexed by position.  The only template character outside `[018]` is
the single `'4'`. -/
def uuidMap (rnd : Nat → Nat) : Nat → List Char → List Char
  | _, [] => []
  | i, a :: rest =>
    (if a = '0' || a = '1' || a = '8' then uuidChar a (rnd i) else a)
      :: uuidMap rnd (i + 1) rest

/-- `createUUID()` (no argument): the fully replaced template. -/
def createUUID (rnd : Nat → Nat) : List Char := uuidMap rnd 0 uuidTemplate

/-- The bytes of `manifest.json`: raw (JSON.parse throws) or a parsed
object. -/
inductive JsonFile where
  | invalid (raw : List Char)
  | valid (m : Fields)

/-- Outcome passed to the `readManifest` callback. -/
inductive RMResult where
  | ioErr
  | parseErr (raw : List Char)
  | ok (m : Fields)

/-- `this.readManifest(cb)`: read the file (`none` = fs error), parse, then
self-heal the `appID` — `fs.writeFileSync` runs before `cb(null, manifest)`,
so the returned file state is the one the callback already observes. -/
def readManifest (rnd : Nat → Nat) (file : Option JsonFile) :
    RMResult × Option JsonFile :=
  match file with
  | none => (RMResult.ioErr, none)
  | some (JsonFile.invalid raw) => (RMResult.parseErr raw, some (JsonFile.invalid raw))
  | some (JsonFile.valid m) =>
    if appIDValid m then (RMResult.ok m, some (JsonFile.valid m))
    else
      let m2 := setField m appIDKey (JVal.str (createUUID rnd))
      (RMResult.ok m2, some (JsonFile.valid m2))

/-- `function augment(a, b)`: copy every own key of `b` onto `a`. -/
def augment (a b : Fields) : Fields :=
  b.foldl (fun acc kv => setField acc kv.1 kv.2) a

/-- `function clone(obj) = JSON.parse(JSON.stringify(obj))`: the identity on
JSON-representable objects. -/
def clone (m : Fields) : Fields := m

/-- The `opts` argument of `populateManifest` (`none` = JS `undefined`). -/
structure PopOpts where
  shortName : Option (List Char)
  title : Option (List Char)

/-- The default skeleton built inside `populateManifest`. -/
def defaultSkeleton (rnd : Nat → Nat) (opts : PopOpts) : Fields :=
  [ (appIDKey, JVal.str (createUUID rnd)),
    ("shortName".toList, JVal.str (opts.shortName.getD [])),
    ("title".toList, JVal.str (opts.title.getD [])),
    ("studio".toList, JVal.obj
      [ ("name".toList, JVal.str "Your Studio Name".toList),
        ("domain".toList, JVal.str "studio.example.com".toList),
        ("stagingDomain".toList, JVal.str "staging.example.com".toList) ]),
    ("supportedOrientations".toList, JVal.arr
      [ JVal.str "portrait".toList, JVal.str "landscape".toList ]) ]

/-- `this.populateManifest(opts, cb)`: the manifest passed to
`saveManifest` is `augment(defaults, clone(this.manifest))`. -/
def populateManifest (rnd : Nat → Nat) (opts : PopOpts) (m : Fields) : Fields :=
  augment (defaultSkeleton rnd opts) (clone m)

/-!
## Package facade: `walkScript` / `rewriteScript`

The AST engine (`falafel`) is an opaque collaborator: it receives the
sanitized source and either returns a regenerated source or throws (`none`).
`walkScript` delivers `unsanitizeCode(out)` at the `'end'` event, where
`out` is the engine result, or — after a caught engine error — the original
file contents; `rewriteScript` writes that same string back to the file.
-/

def walkScriptEnd (engine : List Char → Option (List Char))
    (contents : List Char) : List Char :=
  let out :=
    match engine (sanitizeCode contents) with
    | some o => o
    | none => contents
  unsanitizeCode out

/-- The string `rewriteScript` passes to `fs.writeFileSync`. -/
def rewriteScriptOut (engine : List Char → Option (List Char))
    (contents : List Char) : List Char :=
  walkScriptEnd engine contents

/-!
## Directory listing (`listFiles` / `listFilesSync`)

The recursive traversal (`findit`) is opaque: a directory is modelled by
whether `fs.existsSync(base)` holds and by the ordered list of
`(path, stat)` nodes the walk would produce.  `findit.find` emits `'file'`
events only for plain files; `findit.sync` visits every node, which is why
only the synchronous variant tests `stat.isFile()` itself.
-/

structure Stat where
  isFile : Bool
deriving DecidableEq

structure FSDir where
  existsSync : Bool
  walk : List (List Char × Stat)
deriving DecidableEq

/-- Events emitted by the `EventEmitter` returned from `listFiles`. -/
inductive FEvent where
  | file (name : List Char) (path : List Char) (stat : Stat)
  | done
deriving DecidableEq

/-- `path.extname` (Node): extension of the last path segment including the
dot; empty for a dotless or dotfile-style name. -/
def extname (p : List Char) : List Char :=
  let b := (p.reverse.takeWhile (fun x => x ≠ '/')).reverse
  let t := b.reverse.takeWhile (fun x => x ≠ '.')
  if t.length = b.length then []
  else if t.length + 1 = b.length then []
  else '.' :: t.reverse

/-- `path.extname(file).substr(1)`. -/
def extTail (p : List Char) : List Char := (extname p).drop 1

/-- `path.basename(file, path.extname(file))`. -/
def baseNoExt (p : List Char) : List Char :=
  let b := (p.reverse.takeWhile (fun x => x ≠ '/')).reverse
  b.take (b.length - (extname p).length)

/-- Entries `{name, path, stat}` collected for the callback. -/
abbrev FileEntry := List Char × List Char × Stat

/-- `listFiles(base, exts, cb)`: first component is what the callback
receives (`none` when no callback was passed), second the emitted event
sequence.  For a missing base: with a callback, `cb([])` fires and nothing
is emitted; without one, only `'end'` is emitted (after `nextTick`). -/
def listFiles (fs : FSDir) (exts : Option (List (List Char))) (hasCb : Bool) :
    Option (List FileEntry) × List FEvent :=
  if fs.existsSync = false then
    if hasCb then (some [], []) else (none, [FEvent.done])
  else
    let hits := fs.walk.filter
      (fun e => e.2.isFile && (exts.getD []).contains (extTail e.1))
    let entries : List FileEntry := hits.map (fun e => (baseNoExt e.1, e.1, e.2))
    ((if hasCb then some entries else none),
      hits.map (fun e => FEvent.file (baseNoExt e.1) e.1 e.2) ++ [FEvent.done])

/-- `listFilesSync(base, exts)`. -/
def listFilesSync (fs : FSDir) (exts : Option (List (List Char))) :
    List FileEntry :=
  if fs.existsSync then
    (fs.walk.filter
        (fun e => e.2.isFile && (exts.getD []).contains (extTail e.1))).map
      (fun e => (baseNoExt e.1, e.1, e.2))
  else []

/-!
### Resolver lemmas
-/

theorem resolve_of_abs (rel cls : List Char) (h : cls.head? ≠ some '.') :
    resolve rel cls = cls := by
  unfold resolve
  by_cases hr : rel = []
  · rw [if_pos hr]
  · rw [if_neg hr, if_neg h]

theorem head?_take_cases (s : List Char) (m : Nat) :
    (s.take m).head? = none ∨ (s.take m).head? = s.head? := by
  cases m with
  | zero => exact Or.inl rfl
  | succ m =>
    cases s with
    | nil => exact Or.inl rfl
    | cons a t => exact Or.inr rfl

theorem take_head_not_dot (s : List Char) (k : Nat) (h : s.head? ≠ some '.') :
    (s.take k).head? ≠ some '.' := by
  rcases head?_take_cases s k with h1 | h1
  · rw [h1]; simp
  · rw [h1]; exact h

theorem stripSeg_head (s : List Char) (h : s.head? ≠ some '.') :
    (stripSeg s).head? ≠ some '.' := by
  unfold stripSeg
  exact take_head_not_dot s _ h

theorem resolveLoop_head (cls : List Char) : ∀ rel2 : List Char,
    rel2.head? ≠ some '.' → (resolveLoop rel2 cls).head? ≠ some '.' := by
  induction cls with
  | nil => intro rel2 h; exact h
  | cons c cls ih =>
    intro rel2 h
    unfold resolveLoop
    by_cases hc : c = '.'
    · rw [if_pos hc]; exact ih _ (stripSeg_head rel2 h)
    · rw [if_neg hc]
      cases rel2 with
      | nil => simpa using hc
      | cons a t => simpa using h

theorem resolve_head (rel cls : List Char) (hne : rel ≠ [])
    (hd : rel.head? ≠ some '.') : (resolve rel cls).head? ≠ some '.' := by
  unfold resolve
  rw [if_neg hne]
  by_cases hc : cls.head? = some '.'
  · rw [if_pos hc]; exact resolveLoop_head cls rel hd
  · rw [if_neg hc]; exact hc

theorem mkRecord_resolved (rel : List Char) (b : Bool) (m3 : List Char) :
    ∃ x, (mkRecord rel b m3).resolved = resolve rel x := by
  cases b
  · exact ⟨_, rfl⟩
  · exact ⟨_, rfl⟩

theorem scanAux_resolved_head (rel : List Char) (hne : rel ≠ [])
    (hd : rel.head? ≠ some '.') :
    ∀ (fuel : Nat) (atLS : Bool) (s : List Char),
      ∀ r ∈ scanAux rel fuel atLS s, r.resolved.head? ≠ some '.' := by
  intro fuel
  induction fuel with
  | zero => intro atLS s r hr; simp [scanAux] at hr
  | succ fuel ih =>
    intro atLS s r hr
    cases s with
    | nil => simp [scanAux] at hr
    | cons c s' =>
      cases atLS with
      | false =>
        rw [scanAux] at hr
        exact ih _ _ r hr
      | true =>
        cases htm : tryMatch (c :: s') with
        | none =>
          rw [scanAux, htm] at hr
          exact ih _ _ r hr
        | some res =>
          rw [scanAux, htm] at hr
          rcases List.mem_cons.mp hr with h | h
          · obtain ⟨x, hx⟩ := mkRecord_resolved rel res.isImp res.m3
            rw [h, hx]
            exact resolve_head rel x hne hd
          · exact ih _ _ r h

/-- Every record of `parseImports` has `resolved = resolve rel x` for some
`x`, so a non-empty, dot-free base keeps every `resolvedPath` dot-free. -/
theorem parseImports_resolved_head (code rel : List Char) (hne : rel ≠ [])
    (hd : rel.head? ≠ some '.') :
    ∀ r ∈ parseImports code rel, r.resolved.head? ≠ some '.' :=
  fun r hr => scanAux_resolved_head rel hne hd _ _ _ r hr

theorem scanAux_false_eq_nil (rel : List Char) :
    ∀ (fuel : Nat) (s : List Char), (∀ c ∈ s, isLineTerm c = false) →
      scanAux rel fuel false s = [] := by
  intro fuel
  induction fuel with
  | zero => intro s _; rfl
  | succ fuel ih =>
    intro s h
    cases s with
    | nil => rfl
    | cons c s' =>
      rw [scanAux, h c (by simp)]
      exact ih s' (fun d hd => h d (by simp [hd]))

/-- A single line (no line terminators) rejected by the statement grammar
contributes nothing. -/
theorem parseImports_unmatched_line (code rel : List Char)
    (hnl : ∀ c ∈ code, isLineTerm c = false)
    (hm : tryMatch code = none) : parseImports code rel = [] := by
  unfold parseImports
  cases code with
  | nil => rfl
  | cons c s' =>
    rw [scanAux, hm, hnl c (by simp)]
    exact scanAux_false_eq_nil rel _ s' (fun d hd => hnl d (by simp [hd]))

/-!
## Claim theorems: import parsing and resolution
-/

/-- C4: `resolve("..Foo", base="a.b.c")` drops two trailing segments of the
base and appends `Foo`, giving `a.Foo`; a path with no leading dot, such as
`Foo`, is returned unchanged for every base package path. -/
theorem C4_relative_resolution :
    resolve ("a.b.c".toList) ("..Foo".toList) = "a.Foo".toList ∧
    ∀ rel : List Char, resolve rel ("Foo".toList) = "Foo".toList := by
  refine ⟨by decide, fun rel => resolve_of_abs rel _ (by decide)⟩

/-- C5: parsing `"from a.b import C as D;"` yields exactly one record with
kind `From`, package `a.b`, className `C`, alias `C` (the imported name, not
the `as` token) and resolvedPath `a.b.C`, for every base package path. -/
theorem C5_from_record (rel : List Char) :
    parseImports ("from a.b import C as D;".toList) rel =
      [{ isImp := false, package := "a.b".toList, cls := some ("C".toList),
         aliasName := some ("C".toList), resolved := "a.b.C".toList }] := by
  have h1 : parseImports ("from a.b import C as D;".toList) rel
      = [mkRecord rel false ("a.b import C as D".toList)] := rfl
  have h2 : mkRecord rel false ("a.b import C as D".toList) =
      { isImp := false, package := resolve rel ("a.b".toList),
        cls := some ("C".toList), aliasName := some ("C".toList),
        resolved := resolve rel ("a.b.C".toList) } := rfl
  rw [h1, h2, resolve_of_abs rel ("a.b".toList) (by decide),
    resolve_of_abs rel ("a.b.C".toList) (by decide)]

/-- C3 counterexample: parsing `"import a.b.C;"` (base absent) does not
produce the record claimed — its alias is the whole dotted path `a.b.C`,
not the class name `C`. -/
theorem C3_cex :
    parseImports ("import a.b.C;".toList) [] ≠
      [{ isImp := true, package := "a.b".toList, cls := some ("C".toList),
         aliasName := some ("C".toList), resolved := "a.b.C".toList }] := by
  decide

/-- C3 (amended): parsing `"import a.b.C;"` with any base package path
yields exactly one record with kind `Import`, package `a.b`, className `C`,
alias `a.b.C` — the alias defaulting to the whole first path token
(`rest[0]`, leading dot stripped) when no explicit third token is present —
and resolvedPath `a.b.C`. -/
theorem C3_import_record (rel : List Char) :
    parseImports ("import a.b.C;".toList) rel =
      [{ isImp := true, package := "a.b".toList, cls := some ("C".toList),
         aliasName := some ("a.b.C".toList), resolved := "a.b.C".toList }] := by
  have h1 : parseImports ("import a.b.C;".toList) rel
      = [mkRecord rel true ("a.b.C".toList)] := rfl
  have h2 : mkRecord rel true ("a.b.C".toList) =
      { isImp := true, package := resolve rel ("a.b".toList),
        cls := some ("C".toList), aliasName := some ("a.b.C".toList),
        resolved := resolve rel ("a.b.C".toList) } := rfl
  rw [h1, h2, resolve_of_abs rel ("a.b".toList) (by decide),
    resolve_of_abs rel ("a.b.C".toList) (by decide)]

/-- C2 counterexample: with an empty (absent) base package path, parsing
`"import .Foo;"` produces a record whose resolvedPath starts with a dot. -/
theorem C2_cex :
    ¬ (∀ r ∈ parseImports ("import .Foo;".toList) [],
        r.resolved.head? ≠ some '.') := by
  decide

/-- C2 (amended): for every input text and every non-empty base package
path that does not itself start with a dot, every record produced by
`parseImports` has a resolvedPath that does not start with a dot. -/
theorem C2_no_leading_dot (code rel : List Char) (hne : rel ≠ [])
    (hd : rel.head? ≠ some '.') :
    ∀ r ∈ parseImports code rel, r.resolved.head? ≠ some '.' :=
  parseImports_resolved_head code rel hne hd

/-- C2 witness: concrete base `a.b` and a relative import. -/
theorem C2_no_leading_dot_witness :
    (("a.b".toList ≠ ([] : List Char)) ∧
      ("a.b".toList : List Char).head? ≠ some '.') ∧
    (∀ r ∈ parseImports ("import ..Foo;".toList) ("a.b".toList),
      r.resolved.head? ≠ some '.') :=
  ⟨⟨by decide, by decide⟩,
    C2_no_leading_dot ("import ..Foo;".toList) ("a.b".toList)
      (by decide) (by decide)⟩

/-- C6 counterexample: an import statement missing its trailing `;` is
still matched (the grammar ends in `;*`, zero or more), so it does
contribute a record. -/
theorem C6_cex : parseImports ("import a.b.C".toList) [] ≠ [] := by decide

/-- C6 (amended): a single-line input not matched by the import/from
grammar contributes no record (and the total function `parseImports` never
throws); but the trailing `;` is optional — `;*` — so a missing terminator
does not make a line unmatched. -/
theorem C6_unmatched_skipped (code rel : List Char)
    (hnl : ∀ c ∈ code, isLineTerm c = false)
    (hm : tryMatch code = none) : parseImports code rel = [] :=
  parseImports_unmatched_line code rel hnl hm

/-- C6 witness: a line that is no import statement at all. -/
theorem C6_unmatched_skipped_witness :
    ((∀ c ∈ ("var x = 1;".toList : List Char), isLineTerm c = false) ∧
      tryMatch ("var x = 1;".toList) = none) ∧
    parseImports ("var x = 1;".toList) [] = [] :=
  ⟨⟨by decide, by decide⟩,
    C6_unmatched_skipped ("var x = 1;".toList) [] (by decide) (by decide)⟩

/-- C10: listing a missing base directory yields `[]` from the synchronous
variant; the asynchronous variant hands `[]` to the callback (emitting
nothing) or, without a callback, emits only the `end` event. -/
theorem C10_missing_base (fs : FSDir) (exts : Option (List (List Char)))
    (h : fs.existsSync = false) :
    listFilesSync fs exts = [] ∧
    listFiles fs exts true = (some [], []) ∧
    listFiles fs exts false = (none, [FEvent.done]) := by
  simp [listFilesSync, listFiles, h]

/-- C10 witness. -/
theorem C10_missing_base_witness :
    (FSDir.mk false []).existsSync = false ∧
    (listFilesSync ⟨false, []⟩ none = [] ∧
      listFiles ⟨false, []⟩ none true = (some [], []) ∧
      listFiles ⟨false, []⟩ none false = (none, [FEvent.done])) :=
  ⟨rfl, C10_missing_base ⟨false, []⟩ none rfl⟩

/-!
## Claim theorems: manifest model
-/

theorem uuidMap_length (rnd : Nat → Nat) : ∀ (i : Nat) (l : List Char),
    (uuidMap rnd i l).length = l.length := by
  intro i l
  induction l generalizing i with
  | nil => rfl
  | cons a rest ih => simp [uuidMap, ih]

theorem createUUID_length (rnd : Nat → Nat) : (createUUID rnd).length = 32 := by
  rw [createUUID, uuidMap_length]
  rfl

theorem createUUID_ne_nil (rnd : Nat → Nat) : createUUID rnd ≠ [] := by
  intro h
  have h32 := createUUID_length rnd
  rw [h] at h32
  simp at h32

theorem lookupField_setField_self (m : Fields) (k : List Char) (v : JVal) :
    lookupField (setField m k v) k = some v := by
  induction m with
  | nil => simp [setField, lookupField]
  | cons kv rest ih =>
    obtain ⟨k0, v0⟩ := kv
    by_cases h : k0 = k
    · simp [setField, h, lookupField]
    · simp [setField, h, lookupField, ih]

theorem appIDValid_heal (m : Fields) (rnd : Nat → Nat) :
    appIDValid (setField m appIDKey (JVal.str (createUUID rnd))) = true := by
  unfold appIDValid
  rw [lookupField_setField_self]
  simp [createUUID_ne_nil rnd]

/-- C7 counterexample: the generated identifier is the 32-character
replaced template (`createUUID` lacks the dashes of a canonical 36-character
UUID); healing an empty manifest assigns it. -/
theorem C7_cex :
    readManifest (fun _ => 0) (some (JsonFile.valid [])) =
      (RMResult.ok [(appIDKey, JVal.str uuidTemplate)],
        some (JsonFile.valid [(appIDKey, JVal.str uuidTemplate)])) ∧
    uuidTemplate.length = 32 ∧ ¬ uuidTemplate.length = 36 :=
  ⟨rfl, by decide, by decide⟩

/-- C7 (amended): on valid JSON whose `appID` is absent, not a string, or
empty, `readManifest` assigns a generated non-empty 32-character
identifier, persists the healed manifest in the same step (before the
callback fires), and a second load returns the very same manifest — and in
particular the same `appID` — unchanged. -/
theorem C7_selfHeal (rnd rnd2 : Nat → Nat) (m : Fields)
    (h : appIDValid m = false) :
    readManifest rnd (some (JsonFile.valid m)) =
      (RMResult.ok (setField m appIDKey (JVal.str (createUUID rnd))),
        some (JsonFile.valid (setField m appIDKey (JVal.str (createUUID rnd))))) ∧
    lookupField (setField m appIDKey (JVal.str (createUUID rnd))) appIDKey
      = some (JVal.str (createUUID rnd)) ∧
    (createUUID rnd).length = 32 ∧
    createUUID rnd ≠ [] ∧
    readManifest rnd2
        (some (JsonFile.valid (setField m appIDKey (JVal.str (createUUID rnd))))) =
      (RMResult.ok (setField m appIDKey (JVal.str (createUUID rnd))),
        some (JsonFile.valid (setField m appIDKey (JVal.str (createUUID rnd))))) := by
  refine ⟨?_, lookupField_setField_self m _ _, createUUID_length rnd,
    createUUID_ne_nil rnd, ?_⟩
  · simp [readManifest, h]
  · simp [readManifest, appIDValid_heal]

/-- C7 witness: healing the empty manifest with two different randomness
streams for the two loads. -/
theorem C7_selfHeal_witness :
    appIDValid [] = false ∧
    (readManifest (fun _ => 0) (some (JsonFile.valid [])) =
      (RMResult.ok (setField [] appIDKey (JVal.str (createUUID (fun _ => 0)))),
        some (JsonFile.valid
          (setField [] appIDKey (JVal.str (createUUID (fun _ => 0)))))) ∧
    lookupField (setField [] appIDKey (JVal.str (createUUID (fun _ => 0)))) appIDKey
      = some (JVal.str (createUUID (fun _ => 0))) ∧
    (createUUID (fun _ => 0)).length = 32 ∧
    createUUID (fun _ => 0) ≠ [] ∧
    readManifest (fun _ => 7)
        (some (JsonFile.valid
          (setField [] appIDKey (JVal.str (createUUID (fun _ => 0)))))) =
      (RMResult.ok (setField [] appIDKey (JVal.str (createUUID (fun _ => 0)))),
        some (JsonFile.valid
          (setField [] appIDKey (JVal.str (createUUID (fun _ => 0))))))) :=
  ⟨rfl, C7_selfHeal (fun _ => 0) (fun _ => 7) [] rfl⟩

theorem lookupField_setField_ne (m : Fields) (k k2 : List Char) (v : JVal)
    (h : k2 ≠ k) : lookupField (setField m k2 v) k = lookupField m k := by
  induction m with
  | nil => simp [setField, lookupField, h]
  | cons kv rest ih =>
    obtain ⟨k0, v0⟩ := kv
    by_cases h0 : k0 = k2
    · subst h0
      simp [setField, lookupField, h]
    · simp [setField, h0, lookupField, ih]

theorem lookupField_foldl_setField_of_not_mem (b : Fields) (k : List Char) :
    k ∉ b.map Prod.fst → ∀ a : Fields,
      lookupField (b.foldl (fun acc kv => setField acc kv.1 kv.2) a) k
        = lookupField a k := by
  induction b with
  | nil => intro _ a; rfl
  | cons kv rest ih =>
    intro hk a
    rw [List.map_cons, List.mem_cons] at hk
    push_neg at hk
    rw [List.foldl_cons, ih hk.2, lookupField_setField_ne a k kv.1 kv.2 (fun e => hk.1 e.symm)]

theorem lookupField_augment_of_mem (b : Fields) (k : List Char) (v : JVal) :
    (b.map Prod.fst).Nodup → lookupField b k = some v →
    ∀ a : Fields, lookupField (augment a b) k = some v := by
  induction b with
  | nil => intro _ hv a; simp [lookupField] at hv
  | cons kv rest ih =>
    intro hnd hv a
    obtain ⟨k0, v0⟩ := kv
    rw [List.map_cons, List.nodup_cons] at hnd
    show lookupField (rest.foldl (fun acc kv => setField acc kv.1 kv.2)
      (setField a k0 v0)) k = some v
    by_cases h : k0 = k
    · subst h
      have hv0 : v0 = v := by simpa [lookupField] using hv
      rw [lookupField_foldl_setField_of_not_mem rest k0 hnd.1,
        lookupField_setField_self, hv0]
    · have hv2 : lookupField rest k = some v := by simpa [lookupField, h] using hv
      exact ih hnd.2 hv2 (setField a k0 v0)

/-- C8: `populateManifest` overlays the existing manifest's fields on top of
the default skeleton, so every existing field keeps its value: a manifest
carrying `title: "X"` populated with `options.title = "Y"` still yields
`title: "X"`. -/
theorem C8_existing_wins (rnd : Nat → Nat) (opts : PopOpts) (m : Fields)
    (k : List Char) (v : JVal)
    (hnd : (m.map Prod.fst).Nodup) (hv : lookupField m k = some v) :
    lookupField (populateManifest rnd opts m) k = some v :=
  lookupField_augment_of_mem m k v hnd hv (defaultSkeleton rnd opts)

/-- C8 witness: existing `title: "X"`, options `title = "Y"`. -/
theorem C8_existing_wins_witness :
    (((([("title".toList, JVal.str "X".toList)] : Fields)).map Prod.fst).Nodup ∧
      lookupField [("title".toList, JVal.str "X".toList)] ("title".toList)
        = some (JVal.str "X".toList)) ∧
    lookupField
      (populateManifest (fun _ => 0) ⟨none, some "Y".toList⟩
        [("title".toList, JVal.str "X".toList)]) ("title".toList)
      = some (JVal.str "X".toList) :=
  ⟨⟨by decide, rfl⟩,
    C8_existing_wins (fun _ => 0) ⟨none, some "Y".toList⟩
      [("title".toList, JVal.str "X".toList)] ("title".toList)
      (JVal.str "X".toList) (by decide) rfl⟩

/-!
## Sanitizer lemmas
-/

theorem splitNL_ne_nil (s : List Char) : splitNL s ≠ [] := by
  induction s with
  | nil => simp [splitNL]
  | cons c s ih =>
    simp only [splitNL]
    by_cases hc : c = '\n'
    · simp [hc]
    · rw [if_neg hc]
      cases h : splitNL s with
      | nil => simp
      | cons l ls => simp

theorem joinNL_splitNL (s : List Char) : joinNL (splitNL s) = s := by
  induction s with
  | nil => rfl
  | cons c s ih =>
    simp only [splitNL]
    by_cases hc : c = '\n'
    · rw [if_pos hc]
      cases h : splitNL s with
      | nil => exact absurd h (splitNL_ne_nil s)
      | cons l ls =>
        rw [h] at ih
        subst hc
        show joinNL ([] :: l :: ls) = '\n' :: s
        have e : joinNL ([] :: l :: ls) = [] ++ '\n' :: joinNL (l :: ls) := rfl
        rw [e, ih]
        rfl
    · rw [if_neg hc]
      cases h : splitNL s with
      | nil => exact absurd h (splitNL_ne_nil s)
      | cons l ls =>
        rw [h] at ih
        cases ls with
        | nil =>
          show joinNL [c :: l] = c :: s
          have e : joinNL [c :: l] = c :: l := rfl
          have e2 : joinNL [l] = l := rfl
          rw [e2] at ih
          rw [e, ih]
        | cons l2 ls2 =>
          show joinNL ((c :: l) :: l2 :: ls2) = c :: s
          have e : joinNL ((c :: l) :: l2 :: ls2)
              = (c :: l) ++ '\n' :: joinNL (l2 :: ls2) := rfl
          have e2 : joinNL (l :: l2 :: ls2) = l ++ '\n' :: joinNL (l2 :: ls2) := rfl
          rw [e2] at ih
          rw [e, List.cons_append, ih]

theorem splitNL_no_nl (s : List Char) : ∀ l ∈ splitNL s, ('\n' : Char) ∉ l := by
  induction s with
  | nil =>
    intro l hl
    simp [splitNL] at hl
    simp [hl]
  | cons c s ih =>
    intro l hl
    simp only [splitNL] at hl
    by_cases hc : c = '\n'
    · rw [if_pos hc] at hl
      rcases List.mem_cons.mp hl with h | h
      · simp [h]
      · exact ih l h
    · rw [if_neg hc] at hl
      cases h : splitNL s with
      | nil => exact absurd h (splitNL_ne_nil s)
      | cons r rs =>
        rw [h] at hl
        rcases List.mem_cons.mp hl with h2 | h2
        · subst h2
          intro hmem
          rcases List.mem_cons.mp hmem with h3 | h3
          · exact hc h3.symm
          · exact ih r (by rw [h]; exact List.mem_cons_self r rs) h3
        · exact ih l (by rw [h]; exact List.mem_cons_of_mem r h2)

theorem splitNL_of_no_nl (l : List Char) (h : ('\n' : Char) ∉ l) :
    splitNL l = [l] := by
  induction l with
  | nil => rfl
  | cons c t ih =>
    have hc : c ≠ '\n' := by
      intro e
      exact h (by rw [e]; exact List.mem_cons_self '\n' t)
    simp only [splitNL]
    rw [if_neg hc, ih (fun hm => h (List.mem_cons_of_mem c hm))]

theorem splitNL_append_nl (l t : List Char) (h : ('\n' : Char) ∉ l) :
    splitNL (l ++ '\n' :: t) = l :: splitNL t := by
  induction l with
  | nil =>
    show splitNL ('\n' :: t) = [] :: splitNL t
    simp [splitNL]
  | cons c l2 ih =>
    have hc : c ≠ '\n' := by
      intro e
      exact h (by rw [e]; exact List.mem_cons_self '\n' l2)
    show splitNL (c :: (l2 ++ '\n' :: t)) = (c :: l2) :: splitNL t
    simp only [splitNL]
    rw [if_neg hc, ih (fun hm => h (List.mem_cons_of_mem c hm))]

theorem splitNL_joinNL (ls : List (List Char))
    (h : ∀ l ∈ ls, ('\n' : Char) ∉ l) (hne : ls ≠ []) :
    splitNL (joinNL ls) = ls := by
  induction ls with
  | nil => exact absurd rfl hne
  | cons l rest ih =>
    cases rest with
    | nil =>
      show splitNL (joinNL [l]) = [l]
      have e : joinNL [l] = l := rfl
      rw [e, splitNL_of_no_nl l (h l (List.mem_cons_self l []))]
    | cons l2 rest2 =>
      have e : joinNL (l :: l2 :: rest2) = l ++ '\n' :: joinNL (l2 :: rest2) := rfl
      rw [e, splitNL_append_nl _ _ (h l (List.mem_cons_self l _)),
        ih (fun x hx => h x (List.mem_cons_of_mem l hx)) (by simp)]

theorem kwCI_nil : kwCI [] = false := by decide

theorem kwCI_cons_false (c : Char) (t : List Char)
    (hi : lowerEq c 'i' = false) (hf : lowerEq c 'f' = false) :
    kwCI (c :: t) = false := by
  have e1 : startsKw ("import".toList) (c :: t)
      = (lowerEq c 'i' && startsKw ("mport".toList) t) := rfl
  have e2 : startsKw ("from".toList) (c :: t)
      = (lowerEq c 'f' && startsKw ("rom".toList) t) := rfl
  rw [kwCI, e1, e2, hi, hf]
  rfl

theorem kwCI_hash (t : List Char) : kwCI ('#' :: t) = false :=
  kwCI_cons_false '#' t rfl rfl

theorem dropWhile_isHT_slash (l : List Char) :
    ('/' :: l).dropWhile isHT = '/' :: l := by
  rw [List.dropWhile_cons]
  simp [isHT]

theorem take_two_slash (l : List Char) (h : l.take 2 = ['/', '/']) :
    ∃ l2, l = '/' :: '/' :: l2 := by
  cases l with
  | nil => simp at h
  | cons a t =>
    cases t with
    | nil => simp at h
    | cons b t2 =>
      have e : (a :: b :: t2).take 2 = [a, b] := rfl
      rw [e] at h
      simp at h
      exact ⟨t2, by rw [h.1, h.2]⟩

theorem sanLine_no_nl (l : List Char) (h : ('\n' : Char) ∉ l) :
    ('\n' : Char) ∉ sanLine l := by
  rw [sanLine]
  by_cases hm : sanMatch l = true
  · rw [if_pos hm]
    intro hmem
    rcases List.mem_cons.mp hmem with h1 | h1
    · exact absurd h1 (by decide)
    rcases List.mem_cons.mp h1 with h2 | h2
    · exact absurd h2 (by decide)
    · exact h h2
  · rw [if_neg hm]; exact h

theorem unsanLine_sanLine (l : List Char) (hA : badA l = false)
    (hB : badB l = false) : unsanLine (sanLine l) = l := by
  by_cases hm : sanMatch l = true
  · have hsl : sanLine l = '/' :: '/' :: l := by rw [sanLine, if_pos hm]
    have hkw : kwCI (l.dropWhile isHT) = true := by
      rw [sanMatch] at hm
      by_cases h2 : (l.dropWhile isHT).take 2 = ['/', '/']
      · exfalso
        rw [if_pos h2] at hm
        have hbad : badA l = true := by
          rw [badA, decide_eq_true h2, hm]
          rfl
        rw [hbad] at hA
        exact absurd hA (by decide)
      · rw [if_neg h2] at hm
        exact hm
    have e : unsanMatch ('/' :: '/' :: l) = kwCI (l.dropWhile isHT) := rfl
    have hum : unsanMatch ('/' :: '/' :: l) = true := e.trans hkw
    rw [hsl, unsanLine, if_pos hum]
    rfl
  · have hsl : sanLine l = l := by rw [sanLine, if_neg hm]
    rw [hsl, unsanLine]
    have hum : unsanMatch l = false := by
      cases hu : unsanMatch l with
      | false => rfl
      | true =>
        exfalso
        rw [unsanMatch, Bool.and_eq_true, decide_eq_true_eq] at hu
        obtain ⟨h2, hk⟩ := hu
        obtain ⟨l2, rfl⟩ := take_two_slash l h2
        have hk2 : kwCI (l2.dropWhile isHT) = true := hk
        cases l2 with
        | nil => exact absurd hk2 (by decide)
        | cons c t =>
          have hht : isHT c = false := by
            cases hh : isHT c with
            | false => rfl
            | true =>
              exfalso
              have hbB : badB ('/' :: '/' :: c :: t) = true := by
                rw [badB]
                have e1 : decide (('/' :: '/' :: c :: t).take 2 = ['/', '/'])
                    = true := rfl
                have e2 : headIsHT (('/' :: '/' :: c :: t).drop 2) = isHT c := rfl
                rw [e1, e2, hh]
                have e3 : (('/' :: '/' :: c :: t).drop 2).dropWhile isHT
                    = (c :: t).dropWhile isHT := rfl
                rw [e3, hk2]
                rfl
              rw [hbB] at hB
              exact absurd hB (by decide)
          have hdw : (c :: t).dropWhile isHT = c :: t := by
            rw [List.dropWhile_cons, hht]
            rfl
          rw [hdw] at hk2
          apply hm
          rw [sanMatch]
          have e4 : ('/' :: '/' :: c :: t).dropWhile isHT
              = '/' :: '/' :: c :: t := dropWhile_isHT_slash _
          have hcc : List.take 2 ('/' :: '/' :: c :: t) = ['/', '/'] := rfl
          rw [e4, if_pos hcc]
          exact hk2
    rw [hum]
    simp

theorem map_unsan_san (ls : List (List Char))
    (h : ∀ l ∈ ls, badLine l = false) :
    (ls.map sanLine).map unsanLine = ls := by
  induction ls with
  | nil => rfl
  | cons l rest ih =>
    have hl := h l (List.mem_cons_self l rest)
    rw [badLine, Bool.or_eq_false_iff] at hl
    simp only [List.map_cons]
    rw [unsanLine_sanLine l hl.1 hl.2,
      ih (fun x hx => h x (List.mem_cons_of_mem l hx))]

theorem map_unsanLine_id (ls : List (List Char))
    (h : ∀ l ∈ ls, unsanMatch l = false) : ls.map unsanLine = ls := by
  induction ls with
  | nil => rfl
  | cons l rest ih =>
    have hl : unsanLine l = l := by
      rw [unsanLine, h l (List.mem_cons_self l rest)]
      simp
    simp only [List.map_cons]
    rw [hl, ih (fun x hx => h x (List.mem_cons_of_mem l hx))]

theorem head_hash_of_head? {l : List Char} (h : l.head? = some '#') :
    ∃ t, l = '#' :: t := by
  cases l with
  | nil => simp at h
  | cons a t =>
    simp at h
    exact ⟨t, by rw [h]⟩

theorem sanLine_take3_ne (l : List Char) (h1 : l.take 3 ≠ ['/', '/', '#'])
    (hh : l.head? ≠ some '#') : (sanLine l).take 3 ≠ ['/', '/', '#'] := by
  rw [sanLine]
  by_cases hm : sanMatch l = true
  · rw [if_pos hm]
    cases l with
    | nil => decide
    | cons a t =>
      intro he
      have e : (('/' : Char) :: '/' :: a :: t).take 3 = ['/', '/', a] := rfl
      rw [e] at he
      simp at he
      exact hh (by rw [List.head?_cons, he])
  · rw [if_neg hm]
    exact h1

theorem hashFix_no_nl (ls : List (List Char))
    (h : ∀ l ∈ ls, ('\n' : Char) ∉ l) : ∀ l ∈ hashFix ls, ('\n' : Char) ∉ l := by
  cases ls with
  | nil => intro l hl; simp [hashFix] at hl
  | cons l0 rest =>
    intro l hl
    rw [hashFix] at hl
    rcases List.mem_cons.mp hl with h1 | h1
    · subst h1
      by_cases hh : l0.head? = some '#'
      · rw [if_pos hh]
        intro hmem
        rcases List.mem_cons.mp hmem with h2 | h2
        · exact absurd h2 (by decide)
        rcases List.mem_cons.mp h2 with h3 | h3
        · exact absurd h3 (by decide)
        · exact h l0 (List.mem_cons_self l0 rest) h3
      · rw [if_neg hh]
        exact h l0 (List.mem_cons_self l0 rest)
    · exact h l (List.mem_cons_of_mem l0 h1)

theorem map_sanLine_no_nl (ls : List (List Char))
    (h : ∀ l ∈ ls, ('\n' : Char) ∉ l) :
    ∀ l ∈ ls.map sanLine, ('\n' : Char) ∉ l := by
  intro l hl
  rcases List.mem_map.mp hl with ⟨x, hx, rfl⟩
  exact sanLine_no_nl x (h x hx)

theorem lines_roundTrip (l0 : List Char) (rest : List (List Char))
    (h1 : l0.take 3 ≠ ['/', '/', '#'])
    (h2 : ∀ l ∈ l0 :: rest, badLine l = false) :
    (unhashFix ((hashFix (l0 :: rest)).map sanLine)).map unsanLine
      = l0 :: rest := by
  have h2t : ∀ l ∈ rest, badLine l = false :=
    fun x hx => h2 x (List.mem_cons_of_mem l0 hx)
  by_cases hh : l0.head? = some '#'
  · obtain ⟨t, rfl⟩ := head_hash_of_head? hh
    have e1 : hashFix (('#' :: t) :: rest) = ('/' :: '/' :: '#' :: t) :: rest := by
      have hx : (('#' : Char) :: t).head? = some '#' := rfl
      rw [hashFix, if_pos hx]
    have e2 : sanLine ('/' :: '/' :: '#' :: t) = '/' :: '/' :: '#' :: t := by
      have em : sanMatch ('/' :: '/' :: '#' :: t) = kwCI ('#' :: t) := by
        have hcc : List.take 2 ('/' :: '/' :: '#' :: t) = ['/', '/'] := rfl
        rw [sanMatch, dropWhile_isHT_slash, if_pos hcc]
        rfl
      rw [sanLine, em, kwCI_hash]
      simp
    rw [e1]
    simp only [List.map_cons]
    rw [e2]
    have e3 : unhashFix (('/' :: '/' :: '#' :: t) :: rest.map sanLine)
        = ('#' :: t) :: rest.map sanLine := by
      have hc3 : List.take 3 ('/' :: '/' :: '#' :: t) = ['/', '/', '#'] := rfl
      rw [unhashFix, if_pos hc3]
      rfl
    rw [e3]
    simp only [List.map_cons]
    have e4 : unsanLine ('#' :: t) = '#' :: t := by
      have : unsanMatch ('#' :: t) = false := rfl
      rw [unsanLine, this]
      simp
    rw [e4, map_unsan_san rest h2t]
  · have e1 : hashFix (l0 :: rest) = l0 :: rest := by rw [hashFix, if_neg hh]
    rw [e1]
    simp only [List.map_cons]
    have e3 : unhashFix (sanLine l0 :: rest.map sanLine)
        = sanLine l0 :: rest.map sanLine := by
      rw [unhashFix, if_neg (sanLine_take3_ne l0 h1 hh)]
    rw [e3]
    simp only [List.map_cons]
    have hl0 := h2 l0 (List.mem_cons_self l0 rest)
    rw [badLine, Bool.or_eq_false_iff] at hl0
    rw [unsanLine_sanLine l0 hl0.1 hl0.2, map_unsan_san rest h2t]

theorem unsanitize_noop (s : List Char)
    (h1 : ((splitNL s).headD []).take 3 ≠ ['/', '/', '#'])
    (h2 : ∀ l ∈ splitNL s, unsanMatch l = false) :
    unsanitizeCode s = s := by
  obtain ⟨l0, rest, hsp⟩ : ∃ l0 rest, splitNL s = l0 :: rest := by
    cases h : splitNL s with
    | nil => exact absurd h (splitNL_ne_nil s)
    | cons a b => exact ⟨a, b, rfl⟩
  rw [hsp] at h1 h2
  rw [unsanitizeCode, hsp]
  have e3 : unhashFix (l0 :: rest) = l0 :: rest := by
    rw [unhashFix, if_neg (by simpa using h1)]
  rw [e3, map_unsanLine_id _ h2, ← hsp, joinNL_splitNL]

/-!
## Claim theorems: sanitizer and script rewriting
-/

/-- C1 counterexample: on the text `//import x` the round trip fails — the
sanitizer adds a second `//` which unsanitize cannot remove. -/
theorem C1_cex :
    unsanitizeCode (sanitizeCode ("//import x".toList)) ≠ "//import x".toList := by
  decide

/-- C1 (amended): `unsanitizeCode (sanitizeCode T) = T` character for
character — including texts whose lines begin with `#` or with optional
whitespace then `import`/`from` — provided (carriage returns aside) the
text does not start with `//#` and no line consists of optional
whitespace, `//`, optional whitespace and then the word `import`/`from`
with the two whitespace runs not both non-empty (`badLine`). -/
theorem C1_roundTrip (s : List Char) (hr : ('\r' : Char) ∉ s)
    (h1 : ((splitNL s).headD []).take 3 ≠ ['/', '/', '#'])
    (h2 : ∀ l ∈ splitNL s, badLine l = false) :
    unsanitizeCode (sanitizeCode s) = s := by
  obtain ⟨l0, rest, hsp⟩ : ∃ l0 rest, splitNL s = l0 :: rest := by
    cases h : splitNL s with
    | nil => exact absurd h (splitNL_ne_nil s)
    | cons a b => exact ⟨a, b, rfl⟩
  have hnl : ∀ l ∈ splitNL s, ('\n' : Char) ∉ l := splitNL_no_nl s
  rw [hsp] at h1 h2 hnl
  rw [sanitizeCode, hsp, unsanitizeCode]
  have hs2 : ∀ l ∈ (hashFix (l0 :: rest)).map sanLine, ('\n' : Char) ∉ l :=
    map_sanLine_no_nl _ (hashFix_no_nl _ hnl)
  have hne : (hashFix (l0 :: rest)).map sanLine ≠ [] := by
    rw [hashFix]
    simp
  rw [splitNL_joinNL _ hs2 hne,
    lines_roundTrip l0 rest (by simpa using h1) h2, ← hsp, joinNL_splitNL]

/-- C1 witness: a text with a `#` directive line and an import line. -/
theorem C1_roundTrip_witness :
    ((('\r' : Char) ∉ ("#define X\nimport a.b;\nvar y = 1;".toList : List Char)) ∧
      ((splitNL ("#define X\nimport a.b;\nvar y = 1;".toList)).headD []).take 3
        ≠ ['/', '/', '#'] ∧
      (∀ l ∈ splitNL ("#define X\nimport a.b;\nvar y = 1;".toList),
        badLine l = false)) ∧
    unsanitizeCode (sanitizeCode ("#define X\nimport a.b;\nvar y = 1;".toList))
      = "#define X\nimport a.b;\nvar y = 1;".toList :=
  ⟨⟨by decide, by decide, by decide⟩,
    C1_roundTrip ("#define X\nimport a.b;\nvar y = 1;".toList)
      (by decide) (by decide) (by decide)⟩

/-- C9 counterexample: when the AST engine throws, the delivered code is
`unsanitizeCode` of the original, which differs from the original on a file
whose first line is `//import x;`. -/
theorem C9_cex :
    walkScriptEnd (fun _ => none) ("//import x;".toList)
      ≠ "//import x;".toList := by
  decide

/-- C9 (amended): when the AST engine throws during `walkScript` (and hence
`rewriteScript`), the code delivered at the `end` event — and written back
to the file — is `unsanitizeCode` applied to the original contents; for a
file without carriage returns it equals the original unchanged provided the
original does not start with `//#` and no line starts with `//` followed by
optional whitespace and the word `import`/`from`. -/
theorem C9_engine_fallback (engine : List Char → Option (List Char))
    (contents : List Char) (hr : ('\r' : Char) ∉ contents)
    (he : engine (sanitizeCode contents) = none)
    (h1 : ((splitNL contents).headD []).take 3 ≠ ['/', '/', '#'])
    (h2 : ∀ l ∈ splitNL contents, unsanMatch l = false) :
    walkScriptEnd engine contents = contents ∧
    rewriteScriptOut engine contents = contents := by
  have hw : walkScriptEnd engine contents = unsanitizeCode contents := by
    simp only [walkScriptEnd, he]
  have hn := unsanitize_noop contents h1 h2
  exact ⟨hw.trans hn, hw.trans hn⟩

/-- C9 witness: a plain script and an engine that always throws. -/
theorem C9_engine_fallback_witness :
    ((('\r' : Char) ∉ ("var a = 1;\nvar b = 2;".toList : List Char)) ∧
      ((fun _ => (none : Option (List Char)))
        (sanitizeCode ("var a = 1;\nvar b = 2;".toList)) = none) ∧
      ((splitNL ("var a = 1;\nvar b = 2;".toList)).headD []).take 3
        ≠ ['/', '/', '#'] ∧
      (∀ l ∈ splitNL ("var a = 1;\nvar b = 2;".toList), unsanMatch l = false)) ∧
    (walkScriptEnd (fun _ => none) ("var a = 1;\nvar b = 2;".toList)
        = "var a = 1;\nvar b = 2;".toList ∧
      rewriteScriptOut (fun _ => none) ("var a = 1;\nvar b = 2;".toList)
        = "var a = 1;\nvar b = 2;".toList) :=
  ⟨⟨by decide, rfl, by decide, by decide⟩,
    C9_engine_fallback (fun _ => none) ("var a = 1;\nvar b = 2;".toList)
      (by decide) rfl (by decide) (by decide)⟩

end PackageManager
